import Mathlib

/-!
Idris2 C support: signal collection and polling, directory creation.

A shallow embedding of `support/c/idris_signal.c` and of the POSIX branch of
`idris2_createDir` in `support/c/idris_directory.c`.

* The event record `static atomic_uint_fast32_t signals` is a natural number.
  Every write to it is an OR or an AND with a 32-bit operand, starting from the
  all-clear record, so its value stays below `2 ^ 32`; theorems about a record
  value `r` carry `r < 2 ^ 32`.
* `uint32_t` expressions are natural numbers reduced modulo `2 ^ 32`.
* `int` values (signal numbers, return codes) are integers.
* A C string is the list of its characters before the terminating NUL; a
  `char` buffer is the list of all its cells, terminator included.
* Operating-system calls (`signal`, `raise`, `kill`, `mkdir`, `strdup`) are
  parameters of the functions that make them.
-/

namespace Idris2

/-! ## The event record -/

/-- The build the preprocessor selects: `#ifdef _WIN32` or not. -/
inductive Platform where
  | posix
  | win32
  deriving DecidableEq, Repr

/-- From the source: `#define N_SIGNALS 32`. -/
def N_SIGNALS : Nat := 32

/-- Number of values of a `uint32_t`. -/
def UINT32_SIZE : Nat := 2 ^ 32

/-- The expression `(uint32_t)1 << signum`. -/
def bit_mask (signum : Nat) : Nat := (1 <<< signum) % UINT32_SIZE

/-- The expression `~mask` for a `uint32_t` mask. -/
def bit_not (mask : Nat) : Nat := (mask % UINT32_SIZE) ^^^ (UINT32_SIZE - 1)

/-- The value `atomic_load(&signals)` yields; the record is unchanged. -/
def atomic_load (obj : Nat) : Nat := obj

/-- The value of the record after `atomic_fetch_or(&signals, val)`. -/
def atomic_fetch_or (obj val : Nat) : Nat := obj ||| val

/-- The value of the record after `atomic_fetch_and(&signals, val)`. -/
def atomic_fetch_and (obj val : Nat) : Nat := obj &&& val

/-! ## The collector -/

/-- How a call of `_collect_signal` ends: it returns, or one of its two
`IDRIS2_VERIFY` checks calls the `noreturn` function `idris2_verify_failed`. -/
inductive CollectOutcome where
  | returned
  | verify_failed_range
  | verify_failed_signal
  deriving DecidableEq, Repr

/-- Outcome of a collector call together with the record it leaves. -/
structure CollectResult where
  outcome : CollectOutcome
  signals : Nat
  deriving DecidableEq, Repr

/-- The handler `void _collect_signal(int signum)`. `signal_ok` is the truth of
`signal(signum, _collect_signal) != SIG_ERR`, consulted on the Windows build
only. -/
def _collect_signal (p : Platform) (signal_ok : Bool) (signum : Int) (signals : Nat) :
    CollectResult :=
  if ¬ (signum ≥ 0 ∧ signum < (N_SIGNALS : Int)) then
    ⟨CollectOutcome.verify_failed_range, signals⟩
  else
    let signals1 := atomic_fetch_or signals (bit_mask signum.toNat)
    match p with
    | Platform.win32 =>
      if ¬ (signal_ok = true) then ⟨CollectOutcome.verify_failed_signal, signals1⟩
      else ⟨CollectOutcome.returned, signals1⟩
    | Platform.posix => ⟨CollectOutcome.returned, signals1⟩

/-- Deliveries of the signal numbers of `l` to the collector, one after the
other; the process does not survive a failed `IDRIS2_VERIFY`, so the first
failing call ends the run. `signal_ok n` answers the re-installation of the
handler for `n`. -/
def collect_all (p : Platform) (signal_ok : Int → Bool) :
    List Int → Nat → CollectResult
  | [], signals => ⟨CollectOutcome.returned, signals⟩
  | signum :: rest, signals =>
    let r := _collect_signal p (signal_ok signum) signum signals
    if r.outcome = CollectOutcome.returned then collect_all p signal_ok rest r.signals
    else r

/-! ## The poller -/

/-- How a call of `handle_next_collected_signal` ends: `return v`, or the
`abort()` after the loop. -/
inductive PollOutcome where
  | returned (value : Int)
  | aborted
  deriving DecidableEq, Repr

/-- Outcome of a poll together with the record it leaves. -/
structure PollResult where
  outcome : PollOutcome
  signals : Nat
  deriving DecidableEq, Repr

/-- The loop `for (uint32_t signum = 0; signum != N_SIGNALS; ++signum)` of
`handle_next_collected_signal`, entered at counter `signum` with
`todo = N_SIGNALS - signum` iterations left; when none is left the loop exits
and `abort()` is reached. -/
def scan_signals (signals_snapshot signals : Nat) : Nat → Nat → PollResult
  | 0, _ => ⟨PollOutcome.aborted, signals⟩
  | todo + 1, signum =>
    let mask := bit_mask signum
    if signals_snapshot &&& mask ≠ 0 then
      ⟨PollOutcome.returned (signum : Int), atomic_fetch_and signals (bit_not mask)⟩
    else
      scan_signals signals_snapshot signals todo (signum + 1)

/-- The part of `handle_next_collected_signal` that follows the load: the
snapshot is the local `uint32_t signals_snapshot`, `signals` the record as it
is when this part runs. -/
def poll_after_load (signals_snapshot signals : Nat) : PollResult :=
  if signals_snapshot = 0 then
    ⟨PollOutcome.returned (-1), signals⟩
  else
    scan_signals signals_snapshot signals N_SIGNALS 0

/-- The first statement of `handle_next_collected_signal`:
`uint32_t signals_snapshot = atomic_load(&signals);`. -/
def load_snapshot (signals : Nat) : Nat := atomic_load signals % UINT32_SIZE

/-- The function `int handle_next_collected_signal()` run without
interruption on the record `signals`. -/
def handle_next_collected_signal (signals : Nat) : PollResult :=
  poll_after_load (load_snapshot signals) signals

/-- Successive polls: `count` calls of `handle_next_collected_signal` with no
collector call in between; the outcomes in call order and the final record. -/
def poll_many : Nat → Nat → List PollOutcome × Nat
  | 0, signals => ([], signals)
  | count + 1, signals =>
    let r := handle_next_collected_signal signals
    let rest := poll_many count r.signals
    (r.outcome :: rest.1, rest.2)

/-- The set bits of a record among positions `0 .. N_SIGNALS - 1`, in
increasing order. -/
def pending (signals : Nat) : List Nat :=
  (List.range N_SIGNALS).filter (fun i => signals.testBit i)


/-! ## Interleaved execution of the poller

`handle_next_collected_signal` touches the record twice: the `atomic_load`,
and the `atomic_fetch_and` inside the loop. Between the two it works on its
local snapshot only, so a call is two atomic steps. -/

/-- Where a call of `handle_next_collected_signal` stands: not started, after
its load (holding the local snapshot), or returned. -/
inductive PollerState where
  | ready
  | loaded (signals_snapshot : Nat)
  | finished (outcome : PollOutcome)
  deriving DecidableEq, Repr

/-- One atomic step of a call on the record `signals`: the load, or everything
after the load; a finished call does nothing. -/
def poller_step (pc : PollerState) (signals : Nat) : PollerState × Nat :=
  match pc with
  | PollerState.ready => (PollerState.loaded (load_snapshot signals), signals)
  | PollerState.loaded signals_snapshot =>
    ((PollerState.finished (poll_after_load signals_snapshot signals).outcome),
      (poll_after_load signals_snapshot signals).signals)
  | PollerState.finished outcome => (PollerState.finished outcome, signals)

/-- Two calls of `handle_next_collected_signal` on two threads sharing the
record. -/
structure TwoPollers where
  signals : Nat
  first : PollerState
  second : PollerState
  deriving DecidableEq, Repr

/-- Runs a schedule: `false` lets the first call take its next step, `true`
the second call. -/
def run_pollers : List Bool → TwoPollers → TwoPollers
  | [], t => t
  | false :: rest, t =>
    run_pollers rest ⟨(poller_step t.first t.signals).2, (poller_step t.first t.signals).1,
      t.second⟩
  | true :: rest, t =>
    run_pollers rest ⟨(poller_step t.second t.signals).2, t.first,
      (poller_step t.second t.signals).1⟩

/-- Schedules in which one call finishes before the other loads. -/
def sequential_schedules : List (List Bool) :=
  [[false, false, true, true], [true, true, false, false]]

/-- Schedules in which both loads precede both clears. -/
def overlapping_schedules : List (List Bool) :=
  [[false, true, false, true], [false, true, true, false],
   [true, false, false, true], [true, false, true, false]]

/-- All interleavings of the two steps of the first call with the two steps of
the second. -/
def interleavings : List (List Bool) := sequential_schedules ++ overlapping_schedules

/-- Both calls of a final state returned the same signal number. -/
def reported_twice (t : TwoPollers) : Prop :=
  ∃ n : Int, 0 ≤ n ∧ t.first = PollerState.finished (PollOutcome.returned n) ∧
    t.second = PollerState.finished (PollOutcome.returned n)

/-- What a call may report on a record that started as `r`: nothing pending,
or the number of a bit that was set in `r`. -/
def reports (r : Nat) (v : Int) : Prop :=
  v = -1 ∨ (0 ≤ v ∧ v < 32 ∧ r.testBit v.toNat = true)

/-! ## The sender -/

/-- A request the sender makes to the operating system: `raise(signum)`, which
targets the current process, or `kill(pid, signum)`. -/
inductive OsCall where
  | raise (signum : Int)
  | kill (pid signum : Int)
  deriving DecidableEq, Repr

/-- The requests a call made and the status it returned. -/
structure SendResult where
  calls : List OsCall
  status : Int
  deriving DecidableEq, Repr

/-- The function `int raise_signal(int signum) { return raise(signum); }`;
`raise_status` is the status the C library's `raise` answers with. -/
def raise_signal (raise_status : Int → Int) (signum : Int) : SendResult :=
  ⟨[OsCall.raise signum], raise_status signum⟩

/-- The function `int send_signal(int pid, int signum)`; `kill_status` is the
status `kill` answers with. -/
def send_signal (p : Platform) (raise_status : Int → Int) (kill_status : Int → Int → Int)
    (pid signum : Int) : SendResult :=
  match p with
  | Platform.win32 => raise_signal raise_status signum
  | Platform.posix => ⟨[OsCall.kill pid signum], kill_status pid signum⟩

/-! ## The resolver -/

/-- The signal macros of the platform's `<signal.h>` that the resolver
functions return. Their values belong to the platform, not to this code, so
they are a parameter. The Windows build does not expand `SIGHUP`, `SIGQUIT`,
`SIGTRAP`, `SIGUSR1` and `SIGUSR2`. -/
structure SignalHeader where
  SIGHUP : Int
  SIGINT : Int
  SIGABRT : Int
  SIGQUIT : Int
  SIGILL : Int
  SIGSEGV : Int
  SIGTRAP : Int
  SIGFPE : Int
  SIGUSR1 : Int
  SIGUSR2 : Int
  deriving DecidableEq, Repr

/-- The function `int sighup()`. -/
def sighup (p : Platform) (h : SignalHeader) : Int :=
  match p with
  | Platform.win32 => -1
  | Platform.posix => h.SIGHUP

/-- The function `int sigint()`. -/
def sigint (h : SignalHeader) : Int := h.SIGINT

/-- The function `int sigabrt()`. -/
def sigabrt (h : SignalHeader) : Int := h.SIGABRT

/-- The function `int sigquit()`. -/
def sigquit (p : Platform) (h : SignalHeader) : Int :=
  match p with
  | Platform.win32 => -1
  | Platform.posix => h.SIGQUIT

/-- The function `int sigill()`. -/
def sigill (h : SignalHeader) : Int := h.SIGILL

/-- The function `int sigsegv()`. -/
def sigsegv (h : SignalHeader) : Int := h.SIGSEGV

/-- The function `int sigtrap()`. -/
def sigtrap (p : Platform) (h : SignalHeader) : Int :=
  match p with
  | Platform.win32 => -1
  | Platform.posix => h.SIGTRAP

/-- The function `int sigfpe()`. -/
def sigfpe (h : SignalHeader) : Int := h.SIGFPE

/-- The function `int sigusr1()`. -/
def sigusr1 (p : Platform) (h : SignalHeader) : Int :=
  match p with
  | Platform.win32 => -1
  | Platform.posix => h.SIGUSR1

/-- The function `int sigusr2()`. -/
def sigusr2 (p : Platform) (h : SignalHeader) : Int :=
  match p with
  | Platform.win32 => -1
  | Platform.posix => h.SIGUSR2

/-- The ten logical signal identities, one per resolver function. -/
inductive SignalIdentity where
  | hangup
  | interrupt
  | abort
  | quit
  | illegal_instruction
  | fault
  | trap
  | floating_point
  | user1
  | user2
  deriving DecidableEq, Repr

/-- The resolver function of each identity. -/
def resolve (p : Platform) (h : SignalHeader) : SignalIdentity → Int
  | SignalIdentity.hangup => sighup p h
  | SignalIdentity.interrupt => sigint h
  | SignalIdentity.abort => sigabrt h
  | SignalIdentity.quit => sigquit p h
  | SignalIdentity.illegal_instruction => sigill h
  | SignalIdentity.fault => sigsegv h
  | SignalIdentity.trap => sigtrap p h
  | SignalIdentity.floating_point => sigfpe h
  | SignalIdentity.user1 => sigusr1 p h
  | SignalIdentity.user2 => sigusr2 p h

/-- The signal macro of each identity in the platform's header. -/
def platform_number (h : SignalHeader) : SignalIdentity → Int
  | SignalIdentity.hangup => h.SIGHUP
  | SignalIdentity.interrupt => h.SIGINT
  | SignalIdentity.abort => h.SIGABRT
  | SignalIdentity.quit => h.SIGQUIT
  | SignalIdentity.illegal_instruction => h.SIGILL
  | SignalIdentity.fault => h.SIGSEGV
  | SignalIdentity.trap => h.SIGTRAP
  | SignalIdentity.floating_point => h.SIGFPE
  | SignalIdentity.user1 => h.SIGUSR1
  | SignalIdentity.user2 => h.SIGUSR2

/-- The identities with no signal on a build, in the words of the
specification: hangup, quit, trap, user-1 and user-2 on the Windows build,
none on the POSIX build. -/
def absent_on : Platform → SignalIdentity → Bool
  | Platform.win32, SignalIdentity.hangup => true
  | Platform.win32, SignalIdentity.quit => true
  | Platform.win32, SignalIdentity.trap => true
  | Platform.win32, SignalIdentity.user1 => true
  | Platform.win32, SignalIdentity.user2 => true
  | _, _ => false

/-- A header whose macros, as far as the build expands them, are signal
numbers the collector accepts: values in `[0, N_SIGNALS)`. -/
def header_in_range (p : Platform) (h : SignalHeader) : Prop :=
  ∀ id : SignalIdentity, absent_on p id = false →
    0 ≤ platform_number h id ∧ platform_number h id < (N_SIGNALS : Int)

/-- The signal numbers of Linux on x86 and ARM (`asm-generic/signal.h`). -/
def linux_signal_h : SignalHeader :=
  { SIGHUP := 1, SIGINT := 2, SIGQUIT := 3, SIGILL := 4, SIGTRAP := 5, SIGABRT := 6,
    SIGFPE := 8, SIGUSR1 := 10, SIGSEGV := 11, SIGUSR2 := 12 }

/-- The signal numbers of the Microsoft C runtime; the five macros it does not
define are given the value 0 and are never read on the Windows build. -/
def windows_signal_h : SignalHeader :=
  { SIGHUP := 0, SIGINT := 2, SIGQUIT := 0, SIGILL := 4, SIGTRAP := 0, SIGABRT := 22,
    SIGFPE := 8, SIGUSR1 := 0, SIGSEGV := 11, SIGUSR2 := 0 }


/-! ## Directory creation (POSIX build) -/

/-- The terminator `'\0'` of a C string. -/
def NUL : Char := Char.ofNat 0

/-- The character `'/'`. -/
def SLASH : Char := Char.ofNat 47

/-- The backslash character. -/
def BACKSLASH : Char := Char.ofNat 92

/-- What a call of `mkdir` answers: its return value and the value of `errno`
after the call. -/
structure MkdirReply where
  ret : Int
  errno : Int
  deriving DecidableEq, Repr

/-- Result of `idris2_createDir`: the value returned, the `mkdir` calls made in
order (argument and reply), and the state of the file system afterwards. -/
structure CreateDirResult (σ : Type) where
  ret : Int
  attempts : List (List Char × MkdirReply)
  os : σ

/-- The function `strlen` on a buffer: the number of cells before the first
NUL. -/
def strlen : List Char → Nat
  | [] => 0
  | c :: cs => if c = NUL then 0 else strlen cs + 1

/-- The C string a buffer holds, as a callee such as `mkdir` reads it: the
cells before the first NUL. -/
def c_string : List Char → List Char
  | [] => []
  | c :: cs => if c = NUL then [] else c :: c_string cs

/-- The buffer a successful `strdup(path)` allocates: the characters of `path`
and the terminator. -/
def strdup (path : List Char) : List Char := path ++ [NUL]

/-- The loop `for (char *p = tmp; *p; ++p) if (*p == '\\') *p = '/';`. -/
def normalize_slashes : List Char → List Char
  | [] => []
  | c :: cs =>
    if c = NUL then c :: cs
    else (if c = BACKSLASH then SLASH else c) :: normalize_slashes cs

/-- The loop `for (size_t i = 1; i <= len; ++i)` of `idris2_ensure_dir_posix`,
entered at index `i` with `todo = len + 1 - i` iterations left; when none is
left the loop exits, `tmp` is freed and 0 is returned. `mkdir` is the system
call on the file-system state, `EEXIST` the constant of `<errno.h>`. -/
def ensure_loop {σ : Type} (mkdir : σ → List Char → MkdirReply × σ) (EEXIST : Int) :
    Nat → Nat → List Char → σ → CreateDirResult σ
  | 0, _, _, os => ⟨0, [], os⟩
  | todo + 1, i, tmp, os =>
    if tmp.getD i NUL = SLASH ∨ tmp.getD i NUL = NUL then
      let saved := tmp.getD i NUL
      let tmp1 := tmp.set i NUL
      if strlen tmp1 > 0 then
        let reply := mkdir os (c_string tmp1)
        if reply.1.ret ≠ 0 then
          if reply.1.errno ≠ EEXIST then
            ⟨-1, [(c_string tmp1, reply.1)], reply.2⟩
          else
            let rest := ensure_loop mkdir EEXIST todo (i + 1) (tmp1.set i saved) reply.2
            ⟨rest.ret, (c_string tmp1, reply.1) :: rest.attempts, rest.os⟩
        else
          let rest := ensure_loop mkdir EEXIST todo (i + 1) (tmp1.set i saved) reply.2
          ⟨rest.ret, (c_string tmp1, reply.1) :: rest.attempts, rest.os⟩
      else
        ensure_loop mkdir EEXIST todo (i + 1) (tmp1.set i saved) os
    else
      ensure_loop mkdir EEXIST todo (i + 1) tmp os

/-- The function `static int idris2_ensure_dir_posix(const char *path)` on the
POSIX build. `path` is `none` for a null pointer and otherwise the characters
of the string; `strdup_ok` tells whether `strdup` could allocate. -/
def idris2_ensure_dir_posix {σ : Type} (mkdir : σ → List Char → MkdirReply × σ)
    (EEXIST : Int) (strdup_ok : Bool) (path : Option (List Char)) (os : σ) :
    CreateDirResult σ :=
  match path with
  | none => ⟨-1, [], os⟩
  | some cs =>
    if cs.headD NUL = NUL then ⟨-1, [], os⟩
    else if strdup_ok = false then ⟨-1, [], os⟩
    else
      let tmp := normalize_slashes (strdup cs)
      let len := strlen tmp
      ensure_loop mkdir EEXIST len 1 tmp os

/-- The function `int idris2_createDir(char *dir)` on the POSIX build. -/
def idris2_createDir {σ : Type} (mkdir : σ → List Char → MkdirReply × σ)
    (EEXIST : Int) (strdup_ok : Bool) (dir : Option (List Char)) (os : σ) :
    CreateDirResult σ :=
  idris2_ensure_dir_posix mkdir EEXIST strdup_ok dir os

/-- Specification of the normalisation: the path with each backslash replaced
by `'/'`. -/
def replace_backslashes (path : List Char) : List Char :=
  path.map (fun c => if c = BACKSLASH then SLASH else c)

/-- Specification of the directories to create: the prefixes of `norm` that
end just before each `'/'` at an index from 1 on, by increasing length, and
finally the whole of `norm`. -/
def mkdir_targets (norm : List Char) : List (List Char) :=
  ((List.range' 1 (norm.length - 1)).filter (fun i => norm.getD i NUL = SLASH)).map
    (fun i => norm.take i) ++ [norm]

/-- The targets still ahead when the loop stands at index `i` with `n` indices
left before the end of `norm`. -/
def targets_from (norm : List Char) (i n : Nat) : List (List Char) :=
  ((List.range' i n).filter (fun k => norm.getD k NUL = SLASH)).map
    (fun k => norm.take k) ++ [norm]

/-- An attempt that ends the run: `mkdir` failed with an error other than
`EEXIST`. -/
def hard_failure (EEXIST : Int) (reply : MkdirReply) : Prop :=
  reply.ret ≠ 0 ∧ reply.errno ≠ EEXIST

/-- An attempt that succeeds or fails with `EEXIST`. -/
def tolerated (EEXIST : Int) (reply : MkdirReply) : Prop :=
  reply.ret = 0 ∨ reply.errno = EEXIST

instance (EEXIST : Int) (reply : MkdirReply) : Decidable (hard_failure EEXIST reply) := by
  unfold hard_failure
  exact inferInstance

instance (EEXIST : Int) (reply : MkdirReply) : Decidable (tolerated EEXIST reply) := by
  unfold tolerated
  exact inferInstance

/-- Specification of the run: `mkdir` attempted on the targets in order,
stopping with -1 at the first attempt that fails with an error other than
`EEXIST`, with 0 when no attempt does. -/
def attempt_in_order {σ : Type} (mkdir : σ → List Char → MkdirReply × σ) (EEXIST : Int) :
    List (List Char) → σ → CreateDirResult σ
  | [], os => ⟨0, [], os⟩
  | target :: rest, os =>
    if hard_failure EEXIST (mkdir os target).1 then
      ⟨-1, [(target, (mkdir os target).1)], (mkdir os target).2⟩
    else
      ⟨(attempt_in_order mkdir EEXIST rest (mkdir os target).2).ret,
        (target, (mkdir os target).1) ::
          (attempt_in_order mkdir EEXIST rest (mkdir os target).2).attempts,
        (attempt_in_order mkdir EEXIST rest (mkdir os target).2).os⟩

/-- The parent of a path: what precedes its last `'/'`. -/
def parent_of (path : List Char) : List Char :=
  (path.reverse.dropWhile (fun c => c ≠ SLASH)).drop 1 |>.reverse

/-- A small file system for evaluating the code: the state lists the existing
directories; `mkdir` fails with `EEXIST` (17) on an existing directory, with
`ENOENT` (2) when the parent is neither empty nor existing, and otherwise
creates the directory. -/
def memory_mkdir (dirs : List (List Char)) (path : List Char) :
    MkdirReply × List (List Char) :=
  if path ∈ dirs then (⟨-1, 17⟩, dirs)
  else if parent_of path ≠ [] ∧ parent_of path ∉ dirs then (⟨-1, 2⟩, dirs)
  else (⟨0, 0⟩, path :: dirs)

/-- A `mkdir` that creates nothing and always fails with `EACCES` (13). -/
def denied_mkdir (dirs : List (List Char)) (_path : List Char) :
    MkdirReply × List (List Char) :=
  (⟨-1, 13⟩, dirs)


/-! ## Bit-level facts -/

theorem bit_mask_eq {i : Nat} (hi : i < N_SIGNALS) : bit_mask i = 2 ^ i := by
  unfold bit_mask UINT32_SIZE
  rw [Nat.one_shiftLeft]
  apply Nat.mod_eq_of_lt
  exact Nat.pow_lt_pow_right (by decide) (by unfold N_SIGNALS at hi; exact hi)

theorem and_two_pow_ne_zero (s i : Nat) : s &&& 2 ^ i ≠ 0 ↔ s.testBit i = true := by
  rw [Nat.and_two_pow]
  have hp : 0 < 2 ^ i := Nat.pos_pow_of_pos i (by decide)
  cases h : s.testBit i
  · simp
  · simp

theorem testBit_bit_not {i : Nat} (hi : i < N_SIGNALS) (k : Nat) :
    (bit_not (bit_mask i)).testBit k = (decide (k < 32) && decide (k ≠ i)) := by
  have hlt : bit_mask i < UINT32_SIZE := Nat.mod_lt _ (by decide)
  unfold bit_not
  rw [Nat.mod_eq_of_lt hlt, bit_mask_eq hi, Nat.testBit_xor, Nat.testBit_two_pow]
  unfold UINT32_SIZE
  rw [Nat.testBit_two_pow_sub_one]
  unfold N_SIGNALS at hi
  by_cases h1 : k < 32 <;> by_cases h2 : i = k
  · subst h2; simp [h1]
  · have : k ≠ i := fun h => h2 h.symm
    simp [h1, h2, this]
  · subst h2; omega
  · have : k ≠ i := fun h => h2 h.symm
    simp [h1, h2, this]

theorem testBit_of_lt_uint32 {r : Nat} (hr : r < 2 ^ 32) {k : Nat} (hk : 32 ≤ k) :
    r.testBit k = false := by
  apply Nat.testBit_lt_two_pow
  exact lt_of_lt_of_le hr (Nat.pow_le_pow_right (by decide) hk)

theorem load_snapshot_eq {r : Nat} (hr : r < 2 ^ 32) : load_snapshot r = r := by
  unfold load_snapshot atomic_load UINT32_SIZE
  exact Nat.mod_eq_of_lt hr

/-- The loop finds the first set bit at or after its entry counter. -/
theorem scan_signals_finds (s m : Nat) :
    ∀ (todo signum j : Nat), signum ≤ j → j < signum + todo → signum + todo ≤ N_SIGNALS →
      s.testBit j = true → (∀ i, signum ≤ i → i < j → s.testBit i = false) →
      scan_signals s m todo signum =
        ⟨PollOutcome.returned (j : Int), atomic_fetch_and m (bit_not (bit_mask j))⟩ := by
  intro todo
  induction todo with
  | zero => intro signum j h1 h2; omega
  | succ todo ih =>
    intro signum j h1 h2 h3 hj hlow
    have hs : signum < N_SIGNALS := by omega
    have hcond : (s &&& bit_mask signum ≠ 0) ↔ s.testBit signum = true := by
      rw [bit_mask_eq hs]
      exact and_two_pow_ne_zero s signum
    rw [scan_signals]
    by_cases hcur : s.testBit signum = true
    · have hEq : j = signum := by
        by_contra hne
        have hlt : signum < j := by omega
        have := hlow signum (le_refl _) hlt
        rw [this] at hcur
        exact Bool.noConfusion hcur
      subst hEq
      rw [if_pos (hcond.mpr hcur)]
    · rw [if_neg (fun h => hcur (hcond.mp h))]
      have hne : signum ≠ j := by
        intro h
        subst h
        exact hcur hj
      exact ih (signum + 1) j (by omega) (by omega) (by omega) hj
        (fun i hi1 hi2 => hlow i (by omega) hi2)

/-- A non-zero 32-bit value has a lowest set bit, below position 32. -/
theorem exists_lowest_set_bit {r : Nat} (hr : r < 2 ^ 32) (hne : r ≠ 0) :
    ∃ j, j < 32 ∧ r.testBit j = true ∧ ∀ i, i < j → r.testBit i = false := by
  have hex : ∃ i, r.testBit i = true := Nat.ne_zero_implies_bit_true hne
  refine ⟨Nat.find hex, ?_, Nat.find_spec hex, ?_⟩
  · by_contra hge
    have := testBit_of_lt_uint32 hr (Nat.le_of_not_lt hge)
    rw [Nat.find_spec hex] at this
    exact Bool.noConfusion this
  · intro i hi
    have := Nat.find_min hex hi
    simpa using this

/-- An uninterrupted poll of a non-empty record, given its lowest set bit. -/
theorem poll_of_lowest {r j : Nat} (hr : r < 2 ^ 32) (hj : j < 32)
    (hset : r.testBit j = true) (hlow : ∀ i, i < j → r.testBit i = false) :
    handle_next_collected_signal r =
      ⟨PollOutcome.returned (j : Int), r &&& bit_not (bit_mask j)⟩ := by
  have hne : r ≠ 0 := by
    intro h
    subst h
    simp at hset
  unfold handle_next_collected_signal poll_after_load
  rw [load_snapshot_eq hr, if_neg hne]
  exact scan_signals_finds r r N_SIGNALS 0 j (Nat.zero_le _) (by unfold N_SIGNALS; omega)
    (by omega) hset (fun i _ hi => hlow i hi)

theorem testBit_clear {r j : Nat} (hr : r < 2 ^ 32) (hj : j < 32) (i : Nat) :
    (r &&& bit_not (bit_mask j)).testBit i = (decide (i ≠ j) && r.testBit i) := by
  rw [Nat.testBit_and, testBit_bit_not (by unfold N_SIGNALS; exact hj)]
  by_cases h : i < 32
  · simp [h, Bool.and_comm]
  · rw [testBit_of_lt_uint32 hr (Nat.le_of_not_lt h)]
    simp

theorem clear_lt {r : Nat} (hr : r < 2 ^ 32) (m : Nat) : r &&& m < 2 ^ 32 :=
  lt_of_le_of_lt Nat.and_le_left hr

/-! ## The record stays a 32-bit value -/

theorem scan_signals_le (s m : Nat) :
    ∀ (todo signum : Nat), (scan_signals s m todo signum).signals ≤ m := by
  intro todo
  induction todo with
  | zero => intro signum; exact le_refl m
  | succ todo ih =>
    intro signum
    rw [scan_signals]
    split
    · exact Nat.and_le_left
    · exact ih (signum + 1)

/-- The collector and the poller keep the record below `2 ^ 32`. -/
theorem record_stays_uint32 (p : Platform) (signal_ok : Bool) (signum : Int) (r : Nat)
    (hr : r < 2 ^ 32) :
    (_collect_signal p signal_ok signum r).signals < 2 ^ 32 ∧
    (handle_next_collected_signal r).signals < 2 ^ 32 := by
  constructor
  · have hm : bit_mask signum.toNat < 2 ^ 32 := Nat.mod_lt _ (by decide)
    have hor : r ||| bit_mask signum.toNat < 2 ^ 32 := Nat.or_lt_two_pow hr hm
    unfold _collect_signal atomic_fetch_or
    split
    · exact hr
    · cases p
      · exact hor
      · cases signal_ok
        · exact hor
        · exact hor
  · unfold handle_next_collected_signal poll_after_load
    split
    · exact hr
    · exact lt_of_le_of_lt (scan_signals_le _ _ _ _) hr

/-! ## Claims about the poller -/

/-- C1: for every record value `r` with one of the bits 0..31 set, the poll
returns the index `j` of the lowest set bit of `r`, the record it leaves is `r`
with bit `j` cleared and every other bit as in `r`, and the call does not end
in `abort()`. -/
theorem poll_returns_lowest_set_bit (r : Nat) (hr : r < 2 ^ 32)
    (hset : ∃ i, i < 32 ∧ r.testBit i = true) :
    ∃ j, j < 32 ∧ r.testBit j = true ∧ (∀ i, i < j → r.testBit i = false) ∧
      (handle_next_collected_signal r).outcome = PollOutcome.returned (j : Int) ∧
      (handle_next_collected_signal r).signals.testBit j = false ∧
      (∀ i, i ≠ j →
        (handle_next_collected_signal r).signals.testBit i = r.testBit i) ∧
      (handle_next_collected_signal r).outcome ≠ PollOutcome.aborted := by
  have hne : r ≠ 0 := by
    obtain ⟨i, _, hi⟩ := hset
    intro h
    subst h
    simp at hi
  obtain ⟨j, hj, hjset, hlow⟩ := exists_lowest_set_bit hr hne
  refine ⟨j, hj, hjset, hlow, ?_, ?_, ?_, ?_⟩
  · rw [poll_of_lowest hr hj hjset hlow]
  · rw [poll_of_lowest hr hj hjset hlow]
    show (r &&& bit_not (bit_mask j)).testBit j = false
    rw [testBit_clear hr hj]
    simp
  · intro i hi
    rw [poll_of_lowest hr hj hjset hlow]
    show (r &&& bit_not (bit_mask j)).testBit i = r.testBit i
    rw [testBit_clear hr hj]
    simp [hi]
  · rw [poll_of_lowest hr hj hjset hlow]
    intro h
    exact PollOutcome.noConfusion h

/-- Witness for C1 at the record with bits 2 and 8 set. -/
theorem poll_returns_lowest_set_bit_witness :
    ∃ j, j < 32 ∧ (260 : Nat).testBit j = true ∧ (∀ i, i < j → (260 : Nat).testBit i = false) ∧
      (handle_next_collected_signal 260).outcome = PollOutcome.returned (j : Int) ∧
      (handle_next_collected_signal 260).signals.testBit j = false ∧
      (∀ i, i ≠ j →
        (handle_next_collected_signal 260).signals.testBit i = (260 : Nat).testBit i) ∧
      (handle_next_collected_signal 260).outcome ≠ PollOutcome.aborted :=
  poll_returns_lowest_set_bit 260 (by decide) ⟨2, by decide, by decide⟩

theorem poll_zero : handle_next_collected_signal 0 = ⟨PollOutcome.returned (-1), 0⟩ := by
  decide

theorem poll_many_zero (count : Nat) :
    poll_many count 0 = (List.replicate count (PollOutcome.returned (-1)), 0) := by
  induction count with
  | zero => rfl
  | succ count ih =>
    rw [poll_many, poll_zero]
    simp only [ih, List.replicate_succ]

/-- C2: on the zero record the poll returns -1 and leaves the record zero, any
number of consecutive polls of the zero record all return -1, and for a record
value `r` the poll returns -1 exactly when `r` is zero. -/
theorem poll_none_pending (r : Nat) (hr : r < 2 ^ 32) :
    handle_next_collected_signal 0 = ⟨PollOutcome.returned (-1), 0⟩ ∧
    (∀ count, poll_many count 0 = (List.replicate count (PollOutcome.returned (-1)), 0)) ∧
    ((handle_next_collected_signal r).outcome = PollOutcome.returned (-1) ↔ r = 0) := by
  refine ⟨poll_zero, poll_many_zero, ?_, ?_⟩
  · intro h
    by_contra hne
    obtain ⟨j, hj, hjset, hlow⟩ := exists_lowest_set_bit hr hne
    rw [poll_of_lowest hr hj hjset hlow] at h
    have hv : (j : Int) = -1 := PollOutcome.returned.inj h
    omega
  · intro h
    subst h
    rw [poll_zero]

/-- Witness for C2 at a record with bits 2 and 8 set: the poll does not return
-1 there. -/
theorem poll_none_pending_witness :
    (260 : Nat) < 2 ^ 32 ∧
    (handle_next_collected_signal 0 = ⟨PollOutcome.returned (-1), 0⟩ ∧
    (∀ count, poll_many count 0 = (List.replicate count (PollOutcome.returned (-1)), 0)) ∧
    ((handle_next_collected_signal 260).outcome = PollOutcome.returned (-1) ↔ 260 = 0)) :=
  ⟨by decide, poll_none_pending 260 (by decide)⟩

/-! ## Claims about the collector -/

theorem collect_in_range (p : Platform) (signal_ok : Bool) (signum : Int) (signals : Nat)
    (h0 : 0 ≤ signum) (h1 : signum < 32) :
    (_collect_signal p signal_ok signum signals).signals = signals ||| 2 ^ signum.toNat ∧
    (_collect_signal p signal_ok signum signals).outcome ≠ CollectOutcome.verify_failed_range ∧
    ((p = Platform.win32 → signal_ok = true) →
      (_collect_signal p signal_ok signum signals).outcome = CollectOutcome.returned) := by
  have hguard : ¬ ¬ (signum ≥ 0 ∧ signum < (N_SIGNALS : Int)) := by
    unfold N_SIGNALS
    push_neg
    exact ⟨h0, by exact_mod_cast h1⟩
  have hm : bit_mask signum.toNat = 2 ^ signum.toNat :=
    bit_mask_eq (by unfold N_SIGNALS; omega)
  unfold _collect_signal
  rw [if_neg hguard]
  simp only [atomic_fetch_or, hm]
  cases p
  · simp
  · cases signal_ok <;> simp

theorem collect_out_of_range (p : Platform) (signal_ok : Bool) (signum : Int) (signals : Nat)
    (h : signum < 0 ∨ 32 ≤ signum) :
    _collect_signal p signal_ok signum signals =
      ⟨CollectOutcome.verify_failed_range, signals⟩ := by
  have hguard : ¬ (signum ≥ 0 ∧ signum < (N_SIGNALS : Int)) := by
    unfold N_SIGNALS
    intro hc
    have h2 : signum < 32 := by exact_mod_cast hc.2
    omega
  unfold _collect_signal
  rw [if_pos hguard]

/-- C7: for `0 <= signum < 32` the collector does not take the fatal path of
its range guard and leaves the record equal to the old record OR
`1 << signum`, every other bit unchanged (on the POSIX build it returns); for
`signum < 0` or `signum >= 32` it takes the fatal path of the range guard and
the record is not modified. -/
theorem collect_range_guard (p : Platform) (signal_ok : Bool) (signum : Int) (signals : Nat) :
    (0 ≤ signum ∧ signum < 32 →
      (_collect_signal p signal_ok signum signals).outcome ≠
        CollectOutcome.verify_failed_range ∧
      (_collect_signal p signal_ok signum signals).signals =
        signals ||| (1 <<< signum.toNat) ∧
      (_collect_signal p signal_ok signum signals).signals.testBit signum.toNat = true ∧
      (∀ i, i ≠ signum.toNat →
        (_collect_signal p signal_ok signum signals).signals.testBit i = signals.testBit i) ∧
      (p = Platform.posix →
        (_collect_signal p signal_ok signum signals).outcome = CollectOutcome.returned)) ∧
    (signum < 0 ∨ 32 ≤ signum →
      (_collect_signal p signal_ok signum signals).outcome =
        CollectOutcome.verify_failed_range ∧
      (_collect_signal p signal_ok signum signals).signals = signals) := by
  constructor
  · rintro ⟨h0, h1⟩
    obtain ⟨hs, hout, hret⟩ := collect_in_range p signal_ok signum signals h0 h1
    refine ⟨hout, ?_, ?_, ?_, ?_⟩
    · rw [hs, Nat.one_shiftLeft]
    · rw [hs, Nat.testBit_or, Nat.testBit_two_pow_self]
      simp
    · intro i hi
      rw [hs, Nat.testBit_or, Nat.testBit_two_pow]
      have : ¬ signum.toNat = i := fun h => hi h.symm
      simp [this]
    · intro hp
      apply hret
      intro hw
      rw [hp] at hw
      exact Platform.noConfusion hw
  · intro h
    rw [collect_out_of_range p signal_ok signum signals h]
    exact ⟨rfl, rfl⟩

/-- Witness for C7: signal 8 delivered on the record with bit 2 set, and the
out-of-range number 32 on the same record. -/
theorem collect_range_guard_witness :
    ((0 : Int) ≤ 8 ∧ (8 : Int) < 32) ∧ ((32 : Int) < 0 ∨ (32 : Int) ≤ 32) ∧
    (_collect_signal Platform.posix true 8 4).outcome = CollectOutcome.returned ∧
    (_collect_signal Platform.posix true 8 4).signals = 4 ||| (1 <<< (8 : Int).toNat) ∧
    (_collect_signal Platform.posix true 32 4).outcome = CollectOutcome.verify_failed_range ∧
    (_collect_signal Platform.posix true 32 4).signals = 4 :=
  ⟨by decide, by decide,
    ((collect_range_guard Platform.posix true 8 4).1 (by decide)).2.2.2.2 rfl,
    ((collect_range_guard Platform.posix true 8 4).1 (by decide)).2.1,
    ((collect_range_guard Platform.posix true 32 4).2 (by decide)).1,
    ((collect_range_guard Platform.posix true 32 4).2 (by decide)).2⟩

/-! ## Sequences of deliveries and polls -/

theorem collect_all_ok (p : Platform) (signal_ok : Int → Bool) :
    ∀ (l : List Nat) (s : Nat), (∀ n ∈ l, n < 32) →
      (p = Platform.win32 → ∀ n ∈ l, signal_ok (n : Int) = true) →
      (collect_all p signal_ok (l.map Int.ofNat) s).outcome = CollectOutcome.returned ∧
      ∀ i, (collect_all p signal_ok (l.map Int.ofNat) s).signals.testBit i =
        (s.testBit i || decide (i ∈ l)) := by
  intro l
  induction l with
  | nil =>
    intro s _ _
    simp [collect_all]
  | cons n rest ih =>
    intro s hl hok
    have hn : n < 32 := hl n (List.mem_cons_self n rest)
    obtain ⟨hs, _, hret⟩ :=
      collect_in_range p (signal_ok (n : Int)) (n : Int) s (Int.ofNat_nonneg n)
        (by exact_mod_cast hn)
    have hret1 := hret (fun hp => hok hp n (List.mem_cons_self n rest))
    obtain ⟨ih1, ih2⟩ := ih (s ||| 2 ^ n) (fun m hm => hl m (List.mem_cons_of_mem n hm))
      (fun hp m hm => hok hp m (List.mem_cons_of_mem n hm))
    have hstep : collect_all p signal_ok ((n :: rest).map Int.ofNat) s =
        collect_all p signal_ok (rest.map Int.ofNat) (s ||| 2 ^ n) := by
      rw [List.map_cons, collect_all]
      simp only [Int.ofNat_eq_coe]
      rw [if_pos hret1, hs]
      simp
    rw [hstep]
    refine ⟨ih1, ?_⟩
    intro i
    rw [ih2 i, Nat.testBit_or, Nat.testBit_two_pow]
    by_cases h1 : n = i
    · subst h1; simp
    · have h2 : ¬ i = n := fun h => h1 h.symm
      simp [h1, h2]

theorem lt_uint32_of_testBit {r : Nat} (h : ∀ i, 32 ≤ i → r.testBit i = false) : r < 2 ^ 32 :=
  Nat.lt_pow_two_of_testBit r h

theorem mem_pending (r i : Nat) : i ∈ pending r ↔ i < 32 ∧ r.testBit i = true := by
  simp [pending, N_SIGNALS, List.mem_filter, List.mem_range]

theorem pending_sorted (r : Nat) : (pending r).Sorted (· < ·) :=
  List.Pairwise.filter _ (List.pairwise_lt_range N_SIGNALS)

theorem sorted_lt_ext {l₁ l₂ : List Nat} (h₁ : l₁.Sorted (· < ·)) (h₂ : l₂.Sorted (· < ·))
    (h : ∀ a, a ∈ l₁ ↔ a ∈ l₂) : l₁ = l₂ :=
  List.eq_of_perm_of_sorted ((List.perm_ext_iff_of_nodup h₁.nodup h₂.nodup).mpr h) h₁ h₂

theorem pending_cons {r j : Nat} (hr : r < 2 ^ 32) (hj : j < 32) (hset : r.testBit j = true)
    (hlow : ∀ i, i < j → r.testBit i = false) :
    pending r = j :: pending (r &&& bit_not (bit_mask j)) := by
  apply sorted_lt_ext (pending_sorted r)
  · refine List.sorted_cons.mpr ⟨?_, pending_sorted _⟩
    intro b hb
    rw [mem_pending, testBit_clear hr hj] at hb
    obtain ⟨_, hb2⟩ := hb
    simp only [Bool.and_eq_true, decide_eq_true_eq] at hb2
    by_contra hlt
    have hbj : b < j := by omega
    rw [hlow b hbj] at hb2
    exact Bool.noConfusion hb2.2
  · intro a
    rw [List.mem_cons, mem_pending, mem_pending, testBit_clear hr hj]
    simp only [Bool.and_eq_true, decide_eq_true_eq]
    constructor
    · rintro ⟨h1, h2⟩
      by_cases haj : a = j
      · exact Or.inl haj
      · exact Or.inr ⟨h1, haj, h2⟩
    · rintro (h | ⟨h1, _, h3⟩)
      · subst h; exact ⟨hj, hset⟩
      · exact ⟨h1, h3⟩

/-- Polling drains the pending bits in increasing order and then reports -1. -/
theorem poll_many_pending :
    ∀ (k r : Nat), r < 2 ^ 32 → (pending r).length = k →
      poll_many (k + 1) r =
        ((pending r).map (fun n => PollOutcome.returned (n : Int)) ++
          [PollOutcome.returned (-1)], 0) := by
  intro k
  induction k with
  | zero =>
    intro r hr hlen
    have hnil : pending r = [] := List.length_eq_zero.mp hlen
    have hz : r = 0 := by
      by_contra hne
      obtain ⟨j, hj, hjset, _⟩ := exists_lowest_set_bit hr hne
      have : j ∈ pending r := (mem_pending r j).mpr ⟨hj, hjset⟩
      rw [hnil] at this
      exact List.not_mem_nil j this
    subst hz
    rw [hnil]
    exact poll_many_zero 1
  | succ k ih =>
    intro r hr hlen
    have hne : r ≠ 0 := by
      intro h
      subst h
      have : pending 0 = [] := by decide
      rw [this] at hlen
      exact Nat.succ_ne_zero k hlen.symm
    obtain ⟨j, hj, hjset, hlow⟩ := exists_lowest_set_bit hr hne
    have hcons := pending_cons hr hj hjset hlow
    have hlen1 : (pending (r &&& bit_not (bit_mask j))).length = k := by
      rw [hcons, List.length_cons] at hlen
      omega
    rw [poll_many, poll_of_lowest hr hj hjset hlow]
    simp only
    rw [ih _ (clear_lt hr _) hlen1, hcons]
    simp

/-- C4: from the empty record, `N >= 1` deliveries of the same signal number
`n` in [0, 32) leave the record that one delivery leaves; the next poll
returns `n` and the poll after that returns -1. -/
theorem coalescing (p : Platform) (signal_ok : Int → Bool) (n N : Nat) (hn : n < 32)
    (hN : 1 ≤ N) (hok : p = Platform.win32 → signal_ok (n : Int) = true) :
    (collect_all p signal_ok (List.replicate N (n : Int)) 0).outcome =
      CollectOutcome.returned ∧
    (collect_all p signal_ok (List.replicate N (n : Int)) 0).signals =
      (collect_all p signal_ok [(n : Int)] 0).signals ∧
    poll_many 2 (collect_all p signal_ok (List.replicate N (n : Int)) 0).signals =
      ([PollOutcome.returned (n : Int), PollOutcome.returned (-1)], 0) := by
  have key : ∀ M : Nat, 1 ≤ M →
      (collect_all p signal_ok (List.replicate M (n : Int)) 0).outcome =
        CollectOutcome.returned ∧
      (collect_all p signal_ok (List.replicate M (n : Int)) 0).signals = 2 ^ n := by
    intro M hM
    have hmap : List.replicate M (n : Int) = (List.replicate M n).map Int.ofNat := by
      rw [List.map_replicate]
      rfl
    obtain ⟨h1, h2⟩ := collect_all_ok p signal_ok (List.replicate M n) 0
      (fun m hm => by rw [List.eq_of_mem_replicate hm]; exact hn)
      (fun hp m hm => by rw [List.eq_of_mem_replicate hm]; exact hok hp)
    rw [hmap]
    refine ⟨h1, Nat.eq_of_testBit_eq ?_⟩
    intro i
    rw [h2 i, Nat.testBit_two_pow, Nat.zero_testBit, Bool.false_or]
    have hM0 : M ≠ 0 := by omega
    by_cases h : n = i
    · subst h; simp [List.mem_replicate, hM0]
    · have h2 : ¬ i = n := fun e => h e.symm
      simp [List.mem_replicate, h, h2]
  obtain ⟨hN1, hN2⟩ := key N hN
  have h1 := key 1 (le_refl 1)
  have hone : List.replicate 1 (n : Int) = [(n : Int)] := rfl
  rw [hone] at h1
  have hr : (2 : Nat) ^ n < 2 ^ 32 := Nat.pow_lt_pow_right (by decide) hn
  have hpend : pending (2 ^ n) = [n] := by
    apply sorted_lt_ext (pending_sorted _) (List.sorted_singleton n)
    intro a
    rw [mem_pending, Nat.testBit_two_pow, List.mem_singleton]
    simp only [decide_eq_true_eq]
    constructor
    · rintro ⟨_, h⟩; exact h.symm
    · intro h; subst h; exact ⟨hn, rfl⟩
  refine ⟨hN1, by rw [hN2, h1.2], ?_⟩
  rw [hN2]
  have := poll_many_pending 1 (2 ^ n) hr (by rw [hpend]; rfl)
  rw [hpend] at this
  simpa using this

/-- Witness for C4: signal 8 delivered three times on the POSIX build. -/
theorem coalescing_witness :
    (8 : Nat) < 32 ∧ 1 ≤ 3 ∧
    (collect_all Platform.posix (fun _ => true) (List.replicate 3 ((8 : Nat) : Int)) 0).signals =
      (collect_all Platform.posix (fun _ => true) [((8 : Nat) : Int)] 0).signals ∧
    poll_many 2
        (collect_all Platform.posix (fun _ => true) (List.replicate 3 ((8 : Nat) : Int)) 0).signals =
      ([PollOutcome.returned ((8 : Nat) : Int), PollOutcome.returned (-1)], 0) :=
  ⟨by decide, by decide,
    (coalescing Platform.posix (fun _ => true) 8 3 (by decide) (by decide)
      (fun h => Platform.noConfusion h)).2⟩

/-- C3: from the empty record, after the numbers of a set `S` of signal numbers
in [0, 32) were delivered to the collector in any order `l`, `|S|` successive
polls return the elements of `S` in strictly increasing order, one per call,
and the next poll returns -1 (the record is then empty). -/
theorem drain_in_increasing_order (p : Platform) (signal_ok : Int → Bool) (S : Finset Nat)
    (l : List Nat) (hS : ∀ n ∈ S, n < 32) (hl : l.toFinset = S)
    (hok : p = Platform.win32 → ∀ n ∈ S, signal_ok (n : Int) = true) :
    (collect_all p signal_ok (l.map Int.ofNat) 0).outcome = CollectOutcome.returned ∧
    poll_many (S.card + 1) (collect_all p signal_ok (l.map Int.ofNat) 0).signals =
      ((S.sort (· ≤ ·)).map (fun n => PollOutcome.returned (n : Int)) ++
        [PollOutcome.returned (-1)], 0) ∧
    (S.sort (· ≤ ·)).Sorted (· < ·) := by
  have hmem : ∀ n, n ∈ l ↔ n ∈ S := by
    intro n
    rw [← hl, List.mem_toFinset]
  obtain ⟨h1, h2⟩ := collect_all_ok p signal_ok l 0
    (fun n hn => hS n ((hmem n).mp hn)) (fun hp n hn => hok hp n ((hmem n).mp hn))
  have hbit : ∀ i, (collect_all p signal_ok (l.map Int.ofNat) 0).signals.testBit i = true ↔
      i ∈ S := by
    intro i
    rw [h2 i, Nat.zero_testBit, Bool.false_or, decide_eq_true_eq, hmem]
  have hr : (collect_all p signal_ok (l.map Int.ofNat) 0).signals < 2 ^ 32 := by
    apply lt_uint32_of_testBit
    intro i hi
    cases hb : (collect_all p signal_ok (l.map Int.ofNat) 0).signals.testBit i
    · rfl
    · have := hS i ((hbit i).mp hb)
      omega
  have hpend : pending (collect_all p signal_ok (l.map Int.ofNat) 0).signals =
      S.sort (· ≤ ·) := by
    apply sorted_lt_ext (pending_sorted _) (Finset.sort_sorted_lt S)
    intro a
    rw [mem_pending, Finset.mem_sort, hbit]
    exact ⟨fun h => h.2, fun h => ⟨hS a h, h⟩⟩
  refine ⟨h1, ?_, Finset.sort_sorted_lt S⟩
  have hlen : (pending (collect_all p signal_ok (l.map Int.ofNat) 0).signals).length =
      S.card := by
    rw [hpend, Finset.length_sort]
  rw [poll_many_pending S.card _ hr hlen, hpend]

/-- Witness for C3: the set {2, 8} delivered as 8 then 2 on the POSIX build;
the polls return 2, then 8, then -1. -/
theorem drain_in_increasing_order_witness :
    (∀ n ∈ ({2, 8} : Finset Nat), n < 32) ∧ [8, 2].toFinset = ({2, 8} : Finset Nat) ∧
    poll_many 3 (collect_all Platform.posix (fun _ => true) [8, 2] 0).signals =
      ([PollOutcome.returned 2, PollOutcome.returned 8, PollOutcome.returned (-1)], 0) := by
  have h := drain_in_increasing_order Platform.posix (fun _ => true) {2, 8} [8, 2]
    (by decide) (by decide) (fun hp => Platform.noConfusion hp)
  have hsort : Finset.sort (· ≤ ·) ({2, 8} : Finset Nat) = [2, 8] := by
    apply sorted_lt_ext (Finset.sort_sorted_lt _) (by simp)
    intro a
    rw [Finset.mem_sort]
    simp
  refine ⟨by decide, by decide, ?_⟩
  have h2 := h.2.1
  rw [hsort] at h2
  exact h2

/-- The example of C3 evaluated directly, for both delivery orders. -/
theorem drain_two_and_eight :
    poll_many 3 (collect_all Platform.posix (fun _ => true) [2, 8] 0).signals =
      ([PollOutcome.returned 2, PollOutcome.returned 8, PollOutcome.returned (-1)], 0) ∧
    poll_many 3 (collect_all Platform.posix (fun _ => true) [8, 2] 0).signals =
      ([PollOutcome.returned 2, PollOutcome.returned 8, PollOutcome.returned (-1)], 0) := by
  decide

/-! ## The load and the clear as separate steps -/

theorem poll_after_load_lowest {s j : Nat} (hj : j < 32) (hset : s.testBit j = true)
    (hlow : ∀ i, i < j → s.testBit i = false) (m : Nat) :
    poll_after_load s m = ⟨PollOutcome.returned (j : Int), m &&& bit_not (bit_mask j)⟩ := by
  have hne : s ≠ 0 := by
    intro h
    subst h
    simp at hset
  unfold poll_after_load
  rw [if_neg hne]
  exact scan_signals_finds s m N_SIGNALS 0 j (Nat.zero_le _) (by unfold N_SIGNALS; omega)
    (by omega) hset (fun i _ hi => hlow i hi)

/-- C5: with the poll split into its load and its clear: for every non-zero
snapshot `s` the poll loaded, `j` its lowest set bit, and every `k` in [0, 32)
with `k != j`: when the collector sets bit `k` between the load and the clear
(on the record `m` as it is by then), the poll returns `j`, and after the
clear bit `k` is set in the record and bit `j` is clear. -/
theorem clear_keeps_concurrent_set (p : Platform) (signal_ok : Bool) (s m : Nat)
    (hs : s < 2 ^ 32) (hne : s ≠ 0) (hm : m < 2 ^ 32) :
    ∃ j, j < 32 ∧ s.testBit j = true ∧ (∀ i, i < j → s.testBit i = false) ∧
      ∀ k : Nat, k < 32 → k ≠ j → (p = Platform.win32 → signal_ok = true) →
        (_collect_signal p signal_ok (k : Int) m).outcome = CollectOutcome.returned ∧
        (_collect_signal p signal_ok (k : Int) m).signals.testBit k = true ∧
        (poll_after_load s (_collect_signal p signal_ok (k : Int) m).signals).outcome =
          PollOutcome.returned (j : Int) ∧
        (poll_after_load s
          (_collect_signal p signal_ok (k : Int) m).signals).signals.testBit k = true ∧
        (poll_after_load s
          (_collect_signal p signal_ok (k : Int) m).signals).signals.testBit j = false := by
  obtain ⟨j, hj, hjset, hlow⟩ := exists_lowest_set_bit hs hne
  refine ⟨j, hj, hjset, hlow, ?_⟩
  intro k hk hkj hok
  obtain ⟨hc, _, hret⟩ := collect_in_range p signal_ok (k : Int) m (Int.ofNat_nonneg k)
    (by exact_mod_cast hk)
  have hc1 : (_collect_signal p signal_ok (k : Int) m).signals = m ||| 2 ^ k := by
    rw [hc]
    simp
  have hm1 : m ||| 2 ^ k < 2 ^ 32 :=
    Nat.or_lt_two_pow hm (Nat.pow_lt_pow_right (by decide) hk)
  rw [hc1, poll_after_load_lowest hj hjset hlow]
  refine ⟨hret hok, ?_, rfl, ?_, ?_⟩
  · rw [Nat.testBit_or, Nat.testBit_two_pow_self]
    simp
  · show ((m ||| 2 ^ k) &&& bit_not (bit_mask j)).testBit k = true
    rw [testBit_clear hm1 hj, Nat.testBit_or, Nat.testBit_two_pow_self]
    simp [hkj]
  · show ((m ||| 2 ^ k) &&& bit_not (bit_mask j)).testBit j = false
    rw [testBit_clear hm1 hj]
    simp

/-- Witness for C5: the record with bit 8 set is loaded, then the collector
sets a bit `k` other than 8 on it, then the clear runs. -/
theorem clear_keeps_concurrent_set_witness :
    load_snapshot 256 < 2 ^ 32 ∧ load_snapshot 256 ≠ 0 ∧ (256 : Nat) < 2 ^ 32 ∧
    ∃ j, j < 32 ∧ (load_snapshot 256).testBit j = true ∧
      (∀ i, i < j → (load_snapshot 256).testBit i = false) ∧
      ∀ k : Nat, k < 32 → k ≠ j → (Platform.posix = Platform.win32 → true = true) →
        (_collect_signal Platform.posix true (k : Int) 256).outcome = CollectOutcome.returned ∧
        (_collect_signal Platform.posix true (k : Int) 256).signals.testBit k = true ∧
        (poll_after_load (load_snapshot 256)
          (_collect_signal Platform.posix true (k : Int) 256).signals).outcome =
            PollOutcome.returned (j : Int) ∧
        (poll_after_load (load_snapshot 256)
          (_collect_signal Platform.posix true (k : Int) 256).signals).signals.testBit k = true ∧
        (poll_after_load (load_snapshot 256)
          (_collect_signal Platform.posix true (k : Int) 256).signals).signals.testBit j = false :=
  ⟨by decide, by decide, by decide,
    clear_keeps_concurrent_set Platform.posix true (load_snapshot 256) 256 (by decide)
      (by decide) (by decide)⟩

/-- The interleaving of C5 evaluated: snapshot of the record 256 (bit 8), then
the collector sets bit 2, then the clear; the poll returns 8 and bit 2 stays. -/
theorem clear_keeps_bit_two :
    poll_after_load (load_snapshot 256) (_collect_signal Platform.posix true 2 256).signals =
      ⟨PollOutcome.returned 8, 4⟩ := by
  decide

/-! ## Two concurrent polls -/

/-- C6 as stated fails: on the record 4 (bit 2 pending once), when both calls
load before either clears, both return 2; the second clear finds the record
already zero and clears no pending bit. -/
theorem two_pollers_report_twice :
    run_pollers [false, true, false] ⟨4, PollerState.ready, PollerState.ready⟩ =
      ⟨0, PollerState.finished (PollOutcome.returned 2), PollerState.loaded 4⟩ ∧
    run_pollers [false, true, false, true] ⟨4, PollerState.ready, PollerState.ready⟩ =
      ⟨0, PollerState.finished (PollOutcome.returned 2),
        PollerState.finished (PollOutcome.returned 2)⟩ ∧
    ¬ (∀ (r : Nat) (sched : List Bool), r < 2 ^ 32 → sched ∈ interleavings →
        ¬ reported_twice (run_pollers sched ⟨r, PollerState.ready, PollerState.ready⟩)) := by
  refine ⟨by decide, by decide, ?_⟩
  intro h
  exact h 4 [false, true, false, true] (by decide) (by decide) ⟨2, by decide, by decide⟩

theorem run_sequential_first (r : Nat) :
    run_pollers [false, false, true, true] ⟨r, PollerState.ready, PollerState.ready⟩ =
      ⟨(handle_next_collected_signal (handle_next_collected_signal r).signals).signals,
        PollerState.finished (handle_next_collected_signal r).outcome,
        PollerState.finished
          (handle_next_collected_signal (handle_next_collected_signal r).signals).outcome⟩ :=
  rfl

theorem run_sequential_second (r : Nat) :
    run_pollers [true, true, false, false] ⟨r, PollerState.ready, PollerState.ready⟩ =
      ⟨(handle_next_collected_signal (handle_next_collected_signal r).signals).signals,
        PollerState.finished
          (handle_next_collected_signal (handle_next_collected_signal r).signals).outcome,
        PollerState.finished (handle_next_collected_signal r).outcome⟩ :=
  rfl

/-- In every overlapping schedule both calls hold the snapshot of the initial
record; the clears happen one after the other. -/
theorem run_overlapping (r : Nat) (sched : List Bool) (h : sched ∈ overlapping_schedules) :
    run_pollers sched ⟨r, PollerState.ready, PollerState.ready⟩ =
      ⟨(poll_after_load (load_snapshot r)
          (poll_after_load (load_snapshot r) r).signals).signals,
        PollerState.finished (poll_after_load (load_snapshot r) r).outcome,
        PollerState.finished (poll_after_load (load_snapshot r)
          (poll_after_load (load_snapshot r) r).signals).outcome⟩ ∨
    run_pollers sched ⟨r, PollerState.ready, PollerState.ready⟩ =
      ⟨(poll_after_load (load_snapshot r)
          (poll_after_load (load_snapshot r) r).signals).signals,
        PollerState.finished (poll_after_load (load_snapshot r)
          (poll_after_load (load_snapshot r) r).signals).outcome,
        PollerState.finished (poll_after_load (load_snapshot r) r).outcome⟩ := by
  simp only [overlapping_schedules, List.mem_cons, List.mem_singleton, List.not_mem_nil,
    or_false] at h
  rcases h with h | h | h | h <;> subst h
  · exact Or.inl rfl
  · exact Or.inr rfl
  · exact Or.inl rfl
  · exact Or.inr rfl

/-- An uninterrupted poll either finds the record empty or returns its lowest
set bit and clears it. -/
theorem poll_cases (r : Nat) (hr : r < 2 ^ 32) :
    (r = 0 ∧ handle_next_collected_signal r = ⟨PollOutcome.returned (-1), 0⟩) ∨
    ∃ j, j < 32 ∧ r.testBit j = true ∧ (∀ i, i < j → r.testBit i = false) ∧
      handle_next_collected_signal r =
        ⟨PollOutcome.returned (j : Int), r &&& bit_not (bit_mask j)⟩ := by
  by_cases hz : r = 0
  · subst hz
    exact Or.inl ⟨rfl, poll_zero⟩
  · obtain ⟨j, hj, hjset, hlow⟩ := exists_lowest_set_bit hr hz
    exact Or.inr ⟨j, hj, hjset, hlow, poll_of_lowest hr hj hjset hlow⟩

theorem reports_of_bit {r j : Nat} (hj : j < 32) (hset : r.testBit j = true) :
    reports r (j : Int) := by
  right
  refine ⟨Int.ofNat_nonneg j, by exact_mod_cast hj, ?_⟩
  simpa using hset

/-- Two polls one after the other. -/
theorem sequential_polls (r : Nat) (hr : r < 2 ^ 32) :
    ∃ a b : Int,
      (handle_next_collected_signal r).outcome = PollOutcome.returned a ∧
      (handle_next_collected_signal (handle_next_collected_signal r).signals).outcome =
        PollOutcome.returned b ∧
      reports r a ∧ reports r b ∧
      (∀ i : Nat,
        (handle_next_collected_signal (handle_next_collected_signal r).signals).signals.testBit i
          = true ↔ (r.testBit i = true ∧ (i : Int) ≠ a ∧ (i : Int) ≠ b)) ∧
      (0 ≤ a → a ≠ b) := by
  rcases poll_cases r hr with ⟨hz, h0⟩ | ⟨j, hj, hjset, hlow, h1⟩
  · subst hz
    refine ⟨-1, -1, ?_, ?_, Or.inl rfl, Or.inl rfl, ?_, ?_⟩
    · rw [h0]
    · rw [h0]
      show (handle_next_collected_signal 0).outcome = _
      rw [h0]
    · intro i
      rw [h0]
      show (handle_next_collected_signal 0).signals.testBit i = true ↔ _
      rw [h0]
      simp
    · intro h
      omega
  · have hr1 : r &&& bit_not (bit_mask j) < 2 ^ 32 := clear_lt hr _
    rcases poll_cases _ hr1 with ⟨hz, h0⟩ | ⟨j2, hj2, hjset2, hlow2, h2⟩
    · refine ⟨(j : Int), -1, ?_, ?_, reports_of_bit hj hjset, Or.inl rfl, ?_, ?_⟩
      · rw [h1]
      · rw [h1, h0]
      · intro i
        rw [h1, h0]
        have hbit := testBit_clear hr hj i
        rw [hz] at hbit
        simp only [Nat.zero_testBit] at hbit ⊢
        have hi : ¬ i = j → r.testBit i = false := by
          intro hne
          simpa [hne] using hbit.symm
        constructor
        · intro h
          exact Bool.noConfusion h
        · rintro ⟨hset, hne, _⟩
          have hne2 : ¬ i = j := fun e => hne (by exact_mod_cast e)
          rw [hi hne2] at hset
          exact hset
      · intro _ h
        omega
    · have hclr := testBit_clear hr hj
      have hne : j2 ≠ j := by
        intro e
        have := hclr j2
        rw [hjset2, e] at this
        simp at this
      have hset2 : r.testBit j2 = true := by
        have := hclr j2
        rw [hjset2] at this
        simpa [hne] using this.symm
      refine ⟨(j : Int), (j2 : Int), ?_, ?_, reports_of_bit hj hjset,
        reports_of_bit hj2 hset2, ?_, ?_⟩
      · rw [h1]
      · rw [h1, h2]
      · intro i
        rw [h1, h2]
        show ((r &&& bit_not (bit_mask j)) &&& bit_not (bit_mask j2)).testBit i = true ↔ _
        rw [testBit_clear hr1 hj2, hclr i]
        simp only [Bool.and_eq_true, decide_eq_true_eq, ne_eq, Nat.cast_inj]
        tauto
      · intro _ h
        exact hne (by exact_mod_cast h.symm)

/-- Two polls whose loads both precede their clears. -/
theorem overlapping_polls (r : Nat) (hr : r < 2 ^ 32) :
    ∃ a : Int,
      (poll_after_load (load_snapshot r) r).outcome = PollOutcome.returned a ∧
      (poll_after_load (load_snapshot r)
        (poll_after_load (load_snapshot r) r).signals).outcome = PollOutcome.returned a ∧
      reports r a ∧
      (∀ i : Nat,
        (poll_after_load (load_snapshot r)
          (poll_after_load (load_snapshot r) r).signals).signals.testBit i = true ↔
        (r.testBit i = true ∧ (i : Int) ≠ a)) ∧
      (r ≠ 0 → 0 ≤ a) ∧
      (r ≠ 0 → ∃ j, j < 32 ∧ r.testBit j = true ∧ (∀ i, i < j → r.testBit i = false) ∧
        a = (j : Int)) := by
  rw [load_snapshot_eq hr]
  by_cases hz : r = 0
  · subst hz
    refine ⟨-1, rfl, rfl, Or.inl rfl, ?_, fun h => absurd rfl h, fun h => absurd rfl h⟩
    intro i
    have : (poll_after_load 0 (poll_after_load 0 0).signals).signals = 0 := rfl
    rw [this]
    simp
  · obtain ⟨j, hj, hjset, hlow⟩ := exists_lowest_set_bit hr hz
    have h1 := poll_after_load_lowest hj hjset hlow
    refine ⟨(j : Int), ?_, ?_, reports_of_bit hj hjset, ?_, fun _ => Int.ofNat_nonneg j,
      fun _ => ⟨j, hj, hjset, hlow, rfl⟩⟩
    · rw [h1]
    · rw [h1]
    · intro i
      rw [h1, h1]
      show ((r &&& bit_not (bit_mask j)) &&& bit_not (bit_mask j)).testBit i = true ↔ _
      rw [testBit_clear (clear_lt hr _) hj, testBit_clear hr hj]
      simp only [Bool.and_eq_true, decide_eq_true_eq, ne_eq, Nat.cast_inj]
      tauto

theorem schedules_disjoint :
    ∀ sched ∈ overlapping_schedules, sched ∉ sequential_schedules := by
  decide

/-- C6, amended: in every interleaving of the load and clear steps of two
polls from the record `r` (no collector call in between) both calls return;
each returns -1 or the number of a bit that was set in `r`, and the final
record is `r` with exactly the returned bits cleared. When one call finishes
before the other loads, no signal number is returned by both. When both loads
precede both clears and `r` is not empty, both calls return the same signal
number, the lowest set bit of `r`. -/
theorem two_pollers_interleaved (r : Nat) (hr : r < 2 ^ 32) (sched : List Bool)
    (hs : sched ∈ interleavings) :
    ∃ a b : Int,
      (run_pollers sched ⟨r, PollerState.ready, PollerState.ready⟩).first =
        PollerState.finished (PollOutcome.returned a) ∧
      (run_pollers sched ⟨r, PollerState.ready, PollerState.ready⟩).second =
        PollerState.finished (PollOutcome.returned b) ∧
      reports r a ∧ reports r b ∧
      (∀ i : Nat,
        (run_pollers sched ⟨r, PollerState.ready, PollerState.ready⟩).signals.testBit i = true ↔
          (r.testBit i = true ∧ (i : Int) ≠ a ∧ (i : Int) ≠ b)) ∧
      (sched ∈ sequential_schedules →
        ¬ reported_twice (run_pollers sched ⟨r, PollerState.ready, PollerState.ready⟩)) ∧
      (sched ∈ overlapping_schedules → r ≠ 0 →
        reported_twice (run_pollers sched ⟨r, PollerState.ready, PollerState.ready⟩) ∧
        ∃ j, j < 32 ∧ r.testBit j = true ∧ (∀ i, i < j → r.testBit i = false) ∧
          a = (j : Int) ∧ b = (j : Int)) := by
  unfold interleavings at hs
  rcases List.mem_append.mp hs with hseq | hovl
  · obtain ⟨a, b, ha, hb, hra, hrb, hbits, hab⟩ := sequential_polls r hr
    simp only [sequential_schedules, List.mem_cons, List.mem_singleton, List.not_mem_nil,
      or_false] at hseq
    rcases hseq with h | h <;> subst h
    · rw [run_sequential_first]
      refine ⟨a, b, by rw [ha], by rw [hb], hra, hrb, hbits, ?_, ?_⟩
      · rintro _ ⟨n, hn, h1, h2⟩
        rw [ha] at h1
        rw [hb] at h2
        have e1 : a = n := PollOutcome.returned.inj (PollerState.finished.inj h1)
        have e2 : b = n := PollOutcome.returned.inj (PollerState.finished.inj h2)
        exact hab (by omega) (by omega)
      · intro h
        exact absurd (by decide) (schedules_disjoint _ h)
    · rw [run_sequential_second]
      refine ⟨b, a, by rw [hb], by rw [ha], hrb, hra, ?_, ?_, ?_⟩
      · intro i
        rw [hbits i]
        tauto
      · rintro _ ⟨n, hn, h1, h2⟩
        rw [hb] at h1
        rw [ha] at h2
        have e1 : b = n := PollOutcome.returned.inj (PollerState.finished.inj h1)
        have e2 : a = n := PollOutcome.returned.inj (PollerState.finished.inj h2)
        exact hab (by omega) (by omega)
      · intro h
        exact absurd (by decide) (schedules_disjoint _ h)
  · obtain ⟨a, ha1, ha2, hra, hbits, hpos, hlowest⟩ := overlapping_polls r hr
    have hfin : ∀ t : TwoPollers,
        (t = ⟨(poll_after_load (load_snapshot r)
            (poll_after_load (load_snapshot r) r).signals).signals,
          PollerState.finished (poll_after_load (load_snapshot r) r).outcome,
          PollerState.finished (poll_after_load (load_snapshot r)
            (poll_after_load (load_snapshot r) r).signals).outcome⟩ ∨
        t = ⟨(poll_after_load (load_snapshot r)
            (poll_after_load (load_snapshot r) r).signals).signals,
          PollerState.finished (poll_after_load (load_snapshot r)
            (poll_after_load (load_snapshot r) r).signals).outcome,
          PollerState.finished (poll_after_load (load_snapshot r) r).outcome⟩) →
        t = ⟨(poll_after_load (load_snapshot r)
            (poll_after_load (load_snapshot r) r).signals).signals,
          PollerState.finished (PollOutcome.returned a),
          PollerState.finished (PollOutcome.returned a)⟩ := by
      intro t ht
      rcases ht with h | h <;> rw [h, ha1, ha2]
    rw [hfin _ (run_overlapping r sched hovl)]
    refine ⟨a, a, rfl, rfl, hra, hra, ?_, ?_, ?_⟩
    · intro i
      rw [hbits i]
      tauto
    · intro h
      exact absurd h (schedules_disjoint _ hovl)
    · intro _ hne
      obtain ⟨j, hj, hjset, hlow, haj⟩ := hlowest hne
      exact ⟨⟨a, hpos hne, rfl, rfl⟩, j, hj, hjset, hlow, haj, haj⟩

/-- Witness for C6 amended: the record 4 under the schedule load, load, clear,
clear. -/
theorem two_pollers_interleaved_witness :
    (4 : Nat) < 2 ^ 32 ∧ [false, true, false, true] ∈ interleavings ∧
    ∃ a b : Int,
      (run_pollers [false, true, false, true] ⟨4, PollerState.ready, PollerState.ready⟩).first =
        PollerState.finished (PollOutcome.returned a) ∧
      (run_pollers [false, true, false, true] ⟨4, PollerState.ready, PollerState.ready⟩).second =
        PollerState.finished (PollOutcome.returned b) ∧
      reports 4 a ∧ reports 4 b ∧
      (∀ i : Nat,
        (run_pollers [false, true, false, true]
            ⟨4, PollerState.ready, PollerState.ready⟩).signals.testBit i = true ↔
          ((4 : Nat).testBit i = true ∧ (i : Int) ≠ a ∧ (i : Int) ≠ b)) ∧
      ([false, true, false, true] ∈ sequential_schedules →
        ¬ reported_twice (run_pollers [false, true, false, true]
          ⟨4, PollerState.ready, PollerState.ready⟩)) ∧
      ([false, true, false, true] ∈ overlapping_schedules → (4 : Nat) ≠ 0 →
        reported_twice (run_pollers [false, true, false, true]
          ⟨4, PollerState.ready, PollerState.ready⟩) ∧
        ∃ j, j < 32 ∧ (4 : Nat).testBit j = true ∧ (∀ i, i < j → (4 : Nat).testBit i = false) ∧
          a = (j : Int) ∧ b = (j : Int)) :=
  ⟨by decide, by decide, two_pollers_interleaved 4 (by decide) _ (by decide)⟩

/-! ## Claims about the resolver and the sender -/

theorem linux_header_in_range : header_in_range Platform.posix linux_signal_h := by
  intro id _
  cases id <;> decide

theorem windows_header_in_range : header_in_range Platform.win32 windows_signal_h := by
  intro id _
  cases id <;> decide

/-- C8: each of the ten resolver functions depends on the build only; it
returns -1 exactly for the identities absent on the build (hangup, quit, trap,
user-1, user-2 on Windows, none on POSIX) and otherwise returns the signal
number of the platform's header, which, for a header whose numbers lie in
[0, 32), is not -1 and lies in the collector's range. -/
theorem resolver_contract (p : Platform) (h : SignalHeader) (hh : header_in_range p h)
    (id : SignalIdentity) :
    (resolve p h id = -1 ↔ absent_on p id = true) ∧
    (absent_on p id = false →
      resolve p h id = platform_number h id ∧ resolve p h id ≠ -1 ∧
      0 ≤ resolve p h id ∧ resolve p h id < (N_SIGNALS : Int)) ∧
    (absent_on Platform.posix id = false) ∧
    (absent_on Platform.win32 id = true ↔
      (id = SignalIdentity.hangup ∨ id = SignalIdentity.quit ∨ id = SignalIdentity.trap ∨
        id = SignalIdentity.user1 ∨ id = SignalIdentity.user2)) := by
  have hval : absent_on p id = false → resolve p h id = platform_number h id := by
    intro ha
    cases p <;> cases id <;> first | rfl | exact absurd ha (by decide)
  have habs : absent_on p id = true → resolve p h id = -1 := by
    intro ha
    cases p <;> cases id <;> first | rfl | exact absurd ha (by decide)
  refine ⟨⟨?_, habs⟩, ?_, ?_, ?_⟩
  · intro hres
    cases ha : absent_on p id
    · have hr := hh id ha
      rw [← hval ha, hres] at hr
      omega
    · rfl
  · intro ha
    have hr := hh id ha
    rw [← hval ha] at hr
    exact ⟨hval ha, by omega, hr.1, hr.2⟩
  · cases id <;> rfl
  · cases id <;> decide

/-- Witness for C8: the quit identity on the POSIX build with the Linux signal
numbers. -/
theorem resolver_contract_witness :
    header_in_range Platform.posix linux_signal_h ∧
    resolve Platform.posix linux_signal_h SignalIdentity.quit = 3 ∧
    resolve Platform.posix linux_signal_h SignalIdentity.quit ≠ -1 ∧
    resolve Platform.posix linux_signal_h SignalIdentity.quit < (N_SIGNALS : Int) :=
  ⟨linux_header_in_range,
    ((resolver_contract Platform.posix linux_signal_h linux_header_in_range
      SignalIdentity.quit).2.1 rfl).1,
    ((resolver_contract Platform.posix linux_signal_h linux_header_in_range
      SignalIdentity.quit).2.1 rfl).2.1,
    ((resolver_contract Platform.posix linux_signal_h linux_header_in_range
      SignalIdentity.quit).2.1 rfl).2.2.2⟩

/-- The resolvers on the Windows build with the signal numbers of the
Microsoft C runtime. -/
theorem resolvers_windows :
    sighup Platform.win32 windows_signal_h = -1 ∧ sigint windows_signal_h = 2 ∧
    sigabrt windows_signal_h = 22 ∧ sigquit Platform.win32 windows_signal_h = -1 ∧
    sigill windows_signal_h = 4 ∧ sigsegv windows_signal_h = 11 ∧
    sigtrap Platform.win32 windows_signal_h = -1 ∧ sigfpe windows_signal_h = 8 ∧
    sigusr1 Platform.win32 windows_signal_h = -1 ∧
    sigusr2 Platform.win32 windows_signal_h = -1 := by
  decide

/-- The POSIX build passes `pid` on to `kill`. -/
theorem send_signal_posix (raise_status : Int → Int) (kill_status : Int → Int → Int)
    (pid signum : Int) :
    send_signal Platform.posix raise_status kill_status pid signum =
      ⟨[OsCall.kill pid signum], kill_status pid signum⟩ :=
  rfl

/-- C9 does not hold of the code: on the Windows build `send_signal` ignores
`pid`; for every `pid`, also one that names another process, it raises
`signum` in the current process and returns the status of `raise`. With
`raise` succeeding, the call for process 4321 and signal 2 raises signal 2 in
the caller and returns 0. -/
theorem send_signal_windows_ignores_pid :
    (∀ (raise_status : Int → Int) (kill_status : Int → Int → Int) (pid signum : Int),
      send_signal Platform.win32 raise_status kill_status pid signum =
        ⟨[OsCall.raise signum], raise_status signum⟩) ∧
    send_signal Platform.win32 (fun _ => 0) (fun _ _ => -1) 4321 2 =
      ⟨[OsCall.raise 2], 0⟩ :=
  ⟨fun _ _ _ _ => rfl, by decide⟩

/-! ## Buffers and C strings -/

theorem nul_ne_slash : NUL ≠ SLASH := by decide

theorem normalize_strdup (path : List Char) (hnul : ∀ c ∈ path, c ≠ NUL) :
    normalize_slashes (strdup path) = replace_backslashes path ++ [NUL] := by
  unfold strdup replace_backslashes
  induction path with
  | nil => simp [normalize_slashes]
  | cons c cs ih =>
    have hc : c ≠ NUL := hnul c (List.mem_cons_self c cs)
    have ih1 := ih (fun d hd => hnul d (List.mem_cons_of_mem c hd))
    rw [List.cons_append, normalize_slashes, if_neg hc, ih1, List.map_cons, List.cons_append]

theorem replace_backslashes_nul_free (path : List Char) (hnul : ∀ c ∈ path, c ≠ NUL) :
    ∀ c ∈ replace_backslashes path, c ≠ NUL := by
  intro c hc
  unfold replace_backslashes at hc
  obtain ⟨d, hd, hdc⟩ := List.mem_map.mp hc
  by_cases hb : d = BACKSLASH
  · rw [if_pos hb] at hdc
    rw [← hdc]
    exact fun h => nul_ne_slash h.symm
  · rw [if_neg hb] at hdc
    rw [← hdc]
    exact hnul d hd

theorem replace_backslashes_length (path : List Char) :
    (replace_backslashes path).length = path.length := by
  unfold replace_backslashes
  exact List.length_map _ _

theorem strlen_append_nul (norm : List Char) (hnul : ∀ c ∈ norm, c ≠ NUL) :
    strlen (norm ++ [NUL]) = norm.length := by
  induction norm with
  | nil => simp [strlen]
  | cons c cs ih =>
    have hc : c ≠ NUL := hnul c (List.mem_cons_self c cs)
    rw [List.cons_append, strlen, if_neg hc,
      ih (fun d hd => hnul d (List.mem_cons_of_mem c hd)), List.length_cons]

theorem getD_append_nul (norm : List Char) (i : Nat) :
    (norm ++ [NUL]).getD i NUL = norm.getD i NUL := by
  induction norm generalizing i with
  | nil => cases i <;> simp
  | cons c cs ih =>
    cases i with
    | zero => simp
    | succ i => simpa using ih i

theorem c_string_set (norm : List Char) (hnul : ∀ c ∈ norm, c ≠ NUL) (i : Nat)
    (hi : i ≤ norm.length) : c_string ((norm ++ [NUL]).set i NUL) = norm.take i := by
  induction norm generalizing i with
  | nil =>
    have : i = 0 := by simpa using hi
    subst this
    simp [c_string]
  | cons c cs ih =>
    have hc : c ≠ NUL := hnul c (List.mem_cons_self c cs)
    cases i with
    | zero => simp [c_string]
    | succ i =>
      have hi1 : i ≤ cs.length := by simpa using hi
      rw [List.cons_append, List.set_cons_succ, c_string, if_neg hc,
        ih (fun d hd => hnul d (List.mem_cons_of_mem c hd)) i hi1, List.take_succ_cons]

theorem strlen_eq_length_c_string (buf : List Char) : strlen buf = (c_string buf).length := by
  induction buf with
  | nil => rfl
  | cons c cs ih =>
    by_cases hc : c = NUL
    · rw [strlen, c_string, if_pos hc, if_pos hc]
      rfl
    · rw [strlen, c_string, if_neg hc, if_neg hc, ih, List.length_cons]

theorem strlen_set (norm : List Char) (hnul : ∀ c ∈ norm, c ≠ NUL) (i : Nat)
    (hi : i ≤ norm.length) : strlen ((norm ++ [NUL]).set i NUL) = i := by
  rw [strlen_eq_length_c_string, c_string_set norm hnul i hi, List.length_take]
  omega

theorem set_set_getD (l : List Char) (i : Nat) (a d : Char) :
    (l.set i a).set i (l.getD i d) = l := by
  induction l generalizing i with
  | nil => simp
  | cons c cs ih =>
    cases i with
    | zero => simp
    | succ i => simpa using ih i

theorem getD_ne_nul (norm : List Char) (hnul : ∀ c ∈ norm, c ≠ NUL) (i : Nat)
    (hi : i < norm.length) : norm.getD i NUL ≠ NUL := by
  rw [List.getD_eq_getElem norm NUL hi]
  exact hnul _ (List.getElem_mem _)

theorem getD_length (norm : List Char) : norm.getD norm.length NUL = NUL :=
  List.getD_eq_default norm NUL (le_refl _)

/-! ## The loop of `idris2_ensure_dir_posix` -/

/-- One iteration at an index holding `'/'` or the terminator: `mkdir` on the
prefix, then stop or go on with the buffer restored. -/
theorem ensure_loop_attempt {σ : Type} (mkdir : σ → List Char → MkdirReply × σ)
    (EEXIST : Int) (norm : List Char) (hnul : ∀ c ∈ norm, c ≠ NUL) (todo i : Nat) (os : σ)
    (h1 : 1 ≤ i) (hi : i ≤ norm.length)
    (hc : norm.getD i NUL = SLASH ∨ norm.getD i NUL = NUL) :
    ensure_loop mkdir EEXIST (todo + 1) i (norm ++ [NUL]) os =
      if hard_failure EEXIST (mkdir os (norm.take i)).1 then
        ⟨-1, [(norm.take i, (mkdir os (norm.take i)).1)], (mkdir os (norm.take i)).2⟩
      else
        ⟨(ensure_loop mkdir EEXIST todo (i + 1) (norm ++ [NUL])
            (mkdir os (norm.take i)).2).ret,
          (norm.take i, (mkdir os (norm.take i)).1) ::
            (ensure_loop mkdir EEXIST todo (i + 1) (norm ++ [NUL])
              (mkdir os (norm.take i)).2).attempts,
          (ensure_loop mkdir EEXIST todo (i + 1) (norm ++ [NUL])
            (mkdir os (norm.take i)).2).os⟩ := by
  have hc1 : (norm ++ [NUL]).getD i NUL = SLASH ∨ (norm ++ [NUL]).getD i NUL = NUL := by
    rw [getD_append_nul]
    exact hc
  have hlen : strlen ((norm ++ [NUL]).set i NUL) > 0 := by
    rw [strlen_set norm hnul i hi]
    exact h1
  rw [ensure_loop, if_pos hc1]
  simp only [if_pos hlen, c_string_set norm hnul i hi, set_set_getD]
  unfold hard_failure
  by_cases hret : (mkdir os (norm.take i)).1.ret ≠ 0
  · by_cases herr : (mkdir os (norm.take i)).1.errno ≠ EEXIST
    · rw [if_pos hret, if_pos herr, if_pos ⟨hret, herr⟩]
    · rw [if_pos hret, if_neg herr, if_neg (fun h => herr h.2)]
  · rw [if_neg hret, if_neg (fun h => hret h.1)]

/-- One iteration at an index holding any other character: nothing happens. -/
theorem ensure_loop_skip {σ : Type} (mkdir : σ → List Char → MkdirReply × σ)
    (EEXIST : Int) (norm : List Char) (todo i : Nat) (os : σ)
    (hc : ¬ (norm.getD i NUL = SLASH ∨ norm.getD i NUL = NUL)) :
    ensure_loop mkdir EEXIST (todo + 1) i (norm ++ [NUL]) os =
      ensure_loop mkdir EEXIST todo (i + 1) (norm ++ [NUL]) os := by
  have hc1 : ¬ ((norm ++ [NUL]).getD i NUL = SLASH ∨ (norm ++ [NUL]).getD i NUL = NUL) := by
    rw [getD_append_nul]
    exact hc
  rw [ensure_loop, if_neg hc1]

/-- The loop makes the attempts on the targets ahead, in order. -/
theorem ensure_loop_refines {σ : Type} (mkdir : σ → List Char → MkdirReply × σ)
    (EEXIST : Int) (norm : List Char) (hnul : ∀ c ∈ norm, c ≠ NUL) :
    ∀ (n i : Nat) (os : σ), 1 ≤ i → i + n = norm.length →
      ensure_loop mkdir EEXIST (n + 1) i (norm ++ [NUL]) os =
        attempt_in_order mkdir EEXIST (targets_from norm i n) os := by
  intro n
  induction n with
  | zero =>
    intro i os h1 hlen
    have hi : i = norm.length := by omega
    subst hi
    rw [ensure_loop_attempt mkdir EEXIST norm hnul 0 norm.length os h1 (le_refl _)
      (Or.inr (getD_length norm))]
    simp only [targets_from, List.range'_zero, List.filter_nil, List.map_nil, List.nil_append,
      List.take_length, attempt_in_order, ensure_loop]
  | succ n ih =>
    intro i os h1 hlen
    have hi : i < norm.length := by omega
    have hrange : List.range' i (n + 1) = i :: List.range' (i + 1) n := rfl
    by_cases hs : norm.getD i NUL = SLASH
    · have htargets : targets_from norm i (n + 1) =
          norm.take i :: targets_from norm (i + 1) n := by
        unfold targets_from
        rw [hrange, List.filter_cons_of_pos (by simpa using hs), List.map_cons,
          List.cons_append]
      rw [ensure_loop_attempt mkdir EEXIST norm hnul (n + 1) i os h1 (le_of_lt hi)
        (Or.inl hs), htargets, attempt_in_order]
      simp only [ih (i + 1) _ (by omega) (by omega)]
    · have htargets : targets_from norm i (n + 1) = targets_from norm (i + 1) n := by
        unfold targets_from
        rw [hrange, List.filter_cons_of_neg (by simpa using hs)]
      have hc : ¬ (norm.getD i NUL = SLASH ∨ norm.getD i NUL = NUL) := by
        rintro (h | h)
        · exact hs h
        · exact getD_ne_nul norm hnul i hi h
      rw [ensure_loop_skip mkdir EEXIST norm (n + 1) i os hc, htargets]
      exact ih (i + 1) os (by omega) (by omega)

/-- What a run of attempts in order returns and records. -/
theorem attempt_in_order_spec {σ : Type} (mkdir : σ → List Char → MkdirReply × σ)
    (EEXIST : Int) :
    ∀ (targets : List (List Char)) (os : σ),
      ((attempt_in_order mkdir EEXIST targets os).attempts.map Prod.fst <+: targets) ∧
      ((attempt_in_order mkdir EEXIST targets os).ret = 0 ↔
        ∀ a ∈ (attempt_in_order mkdir EEXIST targets os).attempts, tolerated EEXIST a.2) ∧
      ((attempt_in_order mkdir EEXIST targets os).ret = 0 →
        (attempt_in_order mkdir EEXIST targets os).attempts.map Prod.fst = targets) ∧
      ((attempt_in_order mkdir EEXIST targets os).ret ≠ 0 →
        (attempt_in_order mkdir EEXIST targets os).ret = -1 ∧
        ∃ earlier last,
          (attempt_in_order mkdir EEXIST targets os).attempts = earlier ++ [last] ∧
          hard_failure EEXIST last.2 ∧ ∀ a ∈ earlier, tolerated EEXIST a.2) := by
  intro targets
  induction targets with
  | nil =>
    intro os
    exact ⟨List.prefix_refl [], ⟨fun _ a ha => absurd ha (List.not_mem_nil a), fun _ => rfl⟩,
      fun _ => rfl, fun h => absurd rfl h⟩
  | cons t rest ih =>
    intro os
    have hm1 : ¬ ((-1 : Int) = 0) := by decide
    have htol : ¬ hard_failure EEXIST (mkdir os t).1 → tolerated EEXIST (mkdir os t).1 := by
      unfold hard_failure tolerated
      intro h
      by_cases hr : (mkdir os t).1.ret = 0
      · exact Or.inl hr
      · right
        by_contra he
        exact h ⟨hr, he⟩
    have hnot : hard_failure EEXIST (mkdir os t).1 → ¬ tolerated EEXIST (mkdir os t).1 := by
      unfold hard_failure tolerated
      rintro ⟨h1, h2⟩ (h | h)
      · exact h1 h
      · exact h2 h
    by_cases hf : hard_failure EEXIST (mkdir os t).1
    · rw [attempt_in_order, if_pos hf]
      refine ⟨?_, ?_, ?_, ?_⟩
      · simp
      · simp only [List.mem_singleton, forall_eq]
        constructor
        · intro h
          exact absurd h hm1
        · intro h
          exact absurd h (hnot hf)
      · intro h
        exact absurd h hm1
      · intro _
        exact ⟨rfl, [], (t, (mkdir os t).1), rfl, hf, fun a ha => absurd ha (List.not_mem_nil a)⟩
    · obtain ⟨ih1, ih2, ih3, ih4⟩ := ih (mkdir os t).2
      rw [attempt_in_order, if_neg hf]
      refine ⟨?_, ?_, ?_, ?_⟩
      · simp only [List.map_cons]
        exact (List.prefix_cons_inj t).mpr ih1
      · simp only [List.mem_cons, forall_eq_or_imp]
        rw [ih2]
        exact ⟨fun h => ⟨htol hf, h⟩, fun h => h.2⟩
      · intro h
        simp only [List.map_cons]
        rw [ih3 h]
      · intro h
        obtain ⟨h1, earlier, last, h2, h3, h4⟩ := ih4 h
        refine ⟨h1, (t, (mkdir os t).1) :: earlier, last, ?_, h3, ?_⟩
        · simp only [h2, List.cons_append]
        · intro a ha
          rcases List.mem_cons.mp ha with h5 | h5
          · rw [h5]
            exact htol hf
          · exact h4 a h5

theorem mkdir_targets_increasing (norm : List Char) :
    (mkdir_targets norm).Pairwise (fun a b => a.length < b.length) := by
  unfold mkdir_targets
  have hmem : ∀ k, k ∈ (List.range' 1 (norm.length - 1)).filter
      (fun i => norm.getD i NUL = SLASH) → k < norm.length := by
    intro k hk
    have := List.mem_range'_1.mp (List.mem_filter.mp hk).1
    omega
  have hlen : ∀ k, k < norm.length → (norm.take k).length = k := by
    intro k hk
    rw [List.length_take]
    omega
  rw [List.pairwise_append]
  refine ⟨?_, List.pairwise_singleton _ _, ?_⟩
  · rw [List.pairwise_map]
    have hlt := List.Pairwise.filter (fun i => decide (norm.getD i NUL = SLASH))
      (List.pairwise_lt_range' 1 (norm.length - 1))
    refine List.Pairwise.imp_of_mem ?_ hlt
    intro a b ha hb hab
    rw [hlen a (hmem a ha), hlen b (hmem b hb)]
    exact hab
  · intro a ha b hb
    obtain ⟨k, hk, hka⟩ := List.mem_map.mp ha
    rw [List.mem_singleton.mp hb, ← hka, hlen k (hmem k hk)]
    exact hmem k hk

theorem createDir_refines {σ : Type} (mkdir : σ → List Char → MkdirReply × σ)
    (EEXIST : Int) (os : σ) (path : List Char) (hne : path ≠ [])
    (hnul : ∀ c ∈ path, c ≠ NUL) :
    idris2_createDir mkdir EEXIST true (some path) os =
      attempt_in_order mkdir EEXIST (mkdir_targets (replace_backslashes path)) os := by
  have hhead : ¬ (path.headD NUL = NUL) := by
    cases path with
    | nil => exact absurd rfl hne
    | cons c cs => exact hnul c (List.mem_cons_self c cs)
  have hnorm := replace_backslashes_nul_free path hnul
  have hpos : 1 ≤ (replace_backslashes path).length := by
    rw [replace_backslashes_length]
    exact List.length_pos.mpr hne
  unfold idris2_createDir idris2_ensure_dir_posix
  simp only [if_neg hhead, Bool.true_eq_false, if_false]
  rw [normalize_strdup path hnul, strlen_append_nul _ hnorm]
  have hsplit : (replace_backslashes path).length =
      ((replace_backslashes path).length - 1) + 1 := by omega
  rw [hsplit]
  rw [ensure_loop_refines mkdir EEXIST _ hnorm _ 1 os (le_refl 1) (by omega)]
  rfl

/-- C10: on the POSIX build `idris2_createDir` returns -1 without a `mkdir`
call for a null or an empty path. For a non-empty path (copied by `strdup`),
with each backslash replaced by `'/'`, it attempts `mkdir` on the prefixes that
end just before each `'/'` at an index from 1 on and finally on the whole
path, by increasing length; it returns 0 exactly when every attempt made
succeeds or fails with `EEXIST`, in which case all targets were attempted, and
otherwise returns -1, the last attempt made being the first one that failed
with another error. -/
theorem createDir_posix {σ : Type} (mkdir : σ → List Char → MkdirReply × σ)
    (EEXIST : Int) (os : σ) (path : List Char) (hne : path ≠ [])
    (hnul : ∀ c ∈ path, c ≠ NUL) :
    (∀ strdup_ok, idris2_createDir mkdir EEXIST strdup_ok none os = ⟨-1, [], os⟩) ∧
    (∀ strdup_ok, idris2_createDir mkdir EEXIST strdup_ok (some []) os = ⟨-1, [], os⟩) ∧
    idris2_createDir mkdir EEXIST true (some path) os =
      attempt_in_order mkdir EEXIST (mkdir_targets (replace_backslashes path)) os ∧
    (mkdir_targets (replace_backslashes path)).Pairwise (fun a b => a.length < b.length) ∧
    ((idris2_createDir mkdir EEXIST true (some path) os).attempts.map Prod.fst <+:
      mkdir_targets (replace_backslashes path)) ∧
    ((idris2_createDir mkdir EEXIST true (some path) os).ret = 0 ↔
      ∀ a ∈ (idris2_createDir mkdir EEXIST true (some path) os).attempts,
        tolerated EEXIST a.2) ∧
    ((idris2_createDir mkdir EEXIST true (some path) os).ret = 0 →
      (idris2_createDir mkdir EEXIST true (some path) os).attempts.map Prod.fst =
        mkdir_targets (replace_backslashes path)) ∧
    ((idris2_createDir mkdir EEXIST true (some path) os).ret ≠ 0 →
      (idris2_createDir mkdir EEXIST true (some path) os).ret = -1 ∧
      ∃ earlier last,
        (idris2_createDir mkdir EEXIST true (some path) os).attempts = earlier ++ [last] ∧
        hard_failure EEXIST last.2 ∧ ∀ a ∈ earlier, tolerated EEXIST a.2) := by
  have href := createDir_refines mkdir EEXIST os path hne hnul
  obtain ⟨h1, h2, h3, h4⟩ :=
    attempt_in_order_spec mkdir EEXIST (mkdir_targets (replace_backslashes path)) os
  rw [← href] at h1 h2 h3 h4
  exact ⟨fun _ => rfl, fun _ => rfl, href, mkdir_targets_increasing _, h1, h2, h3, h4⟩

/-- Witness for C10: the path `a/b/c` on an empty in-memory file system; the
attempts are `a`, `a/b`, `a/b/c` and the call returns 0. -/
theorem createDir_posix_witness :
    "a/b/c".toList ≠ [] ∧ (∀ c ∈ "a/b/c".toList, c ≠ NUL) ∧
    mkdir_targets (replace_backslashes "a/b/c".toList) =
      ["a".toList, "a/b".toList, "a/b/c".toList] ∧
    (idris2_createDir memory_mkdir 17 true (some "a/b/c".toList) []).attempts.map Prod.fst =
      mkdir_targets (replace_backslashes "a/b/c".toList) ∧
    (idris2_createDir memory_mkdir 17 true (some "a/b/c".toList) []).ret = 0 :=
  ⟨by decide, by decide, by decide,
    (createDir_posix memory_mkdir 17 [] "a/b/c".toList (by decide) (by decide)).2.2.2.2.2.2.1
      (by decide),
    by decide⟩

/-- The code evaluated on the path `a/b/c` and on a path with backslashes,
a leading and a doubled separator; with a `mkdir` that fails with `EACCES` the
first attempt is the only one and the call returns -1. -/
theorem createDir_examples :
    (idris2_createDir memory_mkdir 17 true (some "a/b/c".toList) []).attempts.map Prod.fst =
      ["a".toList, "a/b".toList, "a/b/c".toList] ∧
    (idris2_createDir memory_mkdir 17 true (some "a/b/c".toList) ["a".toList]).attempts =
      [("a".toList, ⟨-1, 17⟩), ("a/b".toList, ⟨0, 0⟩), ("a/b/c".toList, ⟨0, 0⟩)] ∧
    (idris2_createDir memory_mkdir 17 true (some "a/b/c".toList) ["a".toList]).ret = 0 ∧
    (idris2_createDir memory_mkdir 17 true
        (some [Char.ofNat 47, Char.ofNat 97, BACKSLASH, BACKSLASH, Char.ofNat 98]) []).attempts.map
          Prod.fst = ["/a".toList, "/a/".toList, "/a//b".toList] ∧
    (idris2_createDir denied_mkdir 17 true (some "a/b/c".toList) []).attempts =
      [("a".toList, ⟨-1, 13⟩)] ∧
    (idris2_createDir denied_mkdir 17 true (some "a/b/c".toList) []).ret = -1 ∧
    (idris2_createDir memory_mkdir 17 false (some "a/b/c".toList) []).ret = -1 ∧
    (idris2_createDir memory_mkdir 17 false (some "a/b/c".toList) []).attempts = [] := by
  decide

end Idris2
